import Mathlib

/-! Verification model of the python-args core (src/arg/core.py).

The Python source is shallowly embedded: Python values are `PyVal`,
argument dictionaries are insertion-ordered association lists (`ArgMap`),
the thread-local call object is `Call`, raised exceptions are `Except Err`,
and each decorator class has its `_call` method translated to a Lean
function that threads the mutable call state explicitly. -/

/-- Universe of Python values used by the model: `none`, integers,
strings, lists, and context-manager objects whose enter step yields the
stored resource. -/
inductive PyVal where
  | none
  | int (n : Int)
  | str (s : String)
  | list (xs : List PyVal)
  | ctx (resource : PyVal)

/-- Argument mappings: Python dicts from parameter names to values. -/
abbrev ArgMap := List (String × PyVal)

/-- Dict lookup (first occurrence of the key). -/
def lookup : ArgMap → String → Option PyVal
  | [], _ => Option.none
  | (k, v) :: rest, q => if k = q then Option.some v else lookup rest q

/-- Python dict item assignment `d[k] = v`: update the value in place
when the key exists, else append the new item. -/
def dictSet : ArgMap → String → PyVal → ArgMap
  | [], k, v => [(k, v)]
  | (k2, v2) :: rest, k, v =>
      if k2 = k then (k2, v) :: rest else (k2, v2) :: dictSet rest k v

/-- Python dict merge as in the source expressions of the shape
`{**a, **b}`: start from `a` and apply the items of `b` in order. -/
def dictMerge (a b : ArgMap) : ArgMap :=
  b.foldl (fun acc kv => dictSet acc kv.1 kv.2) a

/-- The run-time call object (class `Call` in the source).  The field
`partMode` models the source attribute named `is_partial` (that exact
name cannot be used here); every other field keeps its source name. -/
structure Call where
  partMode : Bool
  is_pre_func : Bool
  parametrize_arg : Option String
  parametrize_arg_val : Option PyVal
  parametrize_arg_index : Option Nat
  parametrize_arg_vals : Option PyVal

/-- A freshly constructed `Call()`: every flag cleared, every
parametrization attribute `None`. -/
def Call.init : Call :=
  ⟨false, false, Option.none, Option.none, Option.none, Option.none⟩

/-- The keyword arguments of one `Call.set(**kwargs)` invocation: for
each attribute, `some x` means the attribute appears in `kwargs` with
new value `x`. -/
structure CallSet where
  partMode : Option Bool
  is_pre_func : Option Bool
  parametrize_arg : Option (Option String)
  parametrize_arg_val : Option (Option PyVal)
  parametrize_arg_index : Option (Option Nat)
  parametrize_arg_vals : Option (Option PyVal)

/-- Apply the overridden attributes (the setattr loop of
`temporary_set`). -/
def applySet (c : Call) (ov : CallSet) : Call :=
  ⟨ov.partMode.getD c.partMode,
   ov.is_pre_func.getD c.is_pre_func,
   ov.parametrize_arg.getD c.parametrize_arg,
   ov.parametrize_arg_val.getD c.parametrize_arg_val,
   ov.parametrize_arg_index.getD c.parametrize_arg_index,
   ov.parametrize_arg_vals.getD c.parametrize_arg_vals⟩

/-- Restore the snapshot for exactly the overridden attributes, leaving
every other attribute of the current call object untouched. -/
def restoreSet (orig : Call) (ov : CallSet) (cur : Call) : Call :=
  ⟨if ov.partMode.isSome then orig.partMode else cur.partMode,
   if ov.is_pre_func.isSome then orig.is_pre_func else cur.is_pre_func,
   if ov.parametrize_arg.isSome then orig.parametrize_arg else cur.parametrize_arg,
   if ov.parametrize_arg_val.isSome then orig.parametrize_arg_val else cur.parametrize_arg_val,
   if ov.parametrize_arg_index.isSome then orig.parametrize_arg_index else cur.parametrize_arg_index,
   if ov.parametrize_arg_vals.isSome then orig.parametrize_arg_vals else cur.parametrize_arg_vals⟩

/-- Reasons a BindError carries in the model. -/
inductive BindKind where
  | missing (param : String)
  | tooManyPos
  | multiVals (param : String)
  | firstNone (cands : List String)
  deriving DecidableEq

/-- Python exceptions distinguished by the model: `BindError`,
`TypeError`, `AssertionError`, and arbitrary user-raised errors. -/
inductive Err where
  | bind (k : BindKind)
  | typeErr (msg : String)
  | assertFail (msg : String)
  | user (msg : String)
  deriving DecidableEq

/-- The context manager returned by `Call.set` (`temporary_set` in the
source): snapshot the named attributes, set them, run the with-body, and
run the restore statements that follow the yield.  As in the source,
where the generator has no try/finally around its yield, an exception
raised by the with-body is thrown into the generator and propagates at
once, so the restore statements after the yield never run on the error
path. -/
def setScope (ov : CallSet) (body : Call → Except Err PyVal × Call) (c : Call) :
    Except Err PyVal × Call :=
  match body (applySet c ov) with
  | (Except.ok a, c2) => (Except.ok a, restoreSet c ov c2)
  | (Except.error e, c2) => (Except.error e, c2)

/-- A declared parameter: its name plus optional declared default. -/
structure Param where
  name : String
  dflt : Option PyVal

/-- A plain Python callable: its introspectable signature and its body.
The body receives the ambient call object (read-only, the way a wrapped
function observes `arg.call()`) and the bound argument mapping. -/
structure PyFunc where
  params : List Param
  body : Call → ArgMap → Except Err PyVal

/-- The binding loop of `inspect.Signature.bind` (and `bind_partial`)
followed by `apply_defaults`, for positional-or-keyword parameters:
positional arguments are assigned left to right, a parameter given both
positionally and by keyword is a bind failure, remaining parameters take
their keyword value, else their declared default, else - in strict
mode - the first such required parameter raises, while in the mode used
by `bind_partial` it is simply omitted from the result. -/
def bindLoop : List Param → List PyVal → ArgMap → Bool → Except Err ArgMap
  | [], _, _, _ => Except.ok []
  | pr :: rest, a :: restA, kw, pm =>
      if (lookup kw pr.name).isSome then Except.error (Err.bind (BindKind.multiVals pr.name))
      else
        match bindLoop rest restA kw pm with
        | Except.error e => Except.error e
        | Except.ok l => Except.ok ((pr.name, a) :: l)
  | pr :: rest, [], kw, pm =>
      match lookup kw pr.name with
      | Option.some v =>
          (match bindLoop rest [] kw pm with
           | Except.error e => Except.error e
           | Except.ok l => Except.ok ((pr.name, v) :: l))
      | Option.none =>
          match pr.dflt with
          | Option.some d =>
              (match bindLoop rest [] kw pm with
               | Except.error e => Except.error e
               | Except.ok l => Except.ok ((pr.name, d) :: l))
          | Option.none =>
              if pm then bindLoop rest [] kw pm
              else Except.error (Err.bind (BindKind.missing pr.name))

/-- The `_parse_args` helper of the source: keyword arguments are first
filtered to the declared parameters, the filtered arguments are bound
(strictly, or tolerantly when `pm` is true) with declared defaults
applied, and when `extra` is true the keyword arguments that are not
declared parameters are appended to the result verbatim. -/
def parseArgs (f : PyFunc) (args : List PyVal) (kwargs : ArgMap)
    (extra : Bool) (pm : Bool) : Except Err ArgMap :=
  let declared := fun k => f.params.any (fun pr => pr.name == k)
  let filtered := kwargs.filter (fun kv => declared kv.1)
  if f.params.length < args.length then Except.error (Err.bind BindKind.tooManyPos)
  else
    match bindLoop f.params args filtered pm with
    | Except.error e => Except.error e
    | Except.ok bound =>
        Except.ok (if extra then bound ++ kwargs.filter (fun kv => !(declared kv.1)) else bound)

/-- The first declared parameter that is required (no declared default)
and has no value in the given mapping - the parameter a strict bind
reports as missing. -/
def firstMissing : List Param → ArgMap → Option String
  | [], _ => Option.none
  | pr :: rest, kw =>
      if pr.dflt.isNone && (lookup kw pr.name).isNone then Option.some pr.name
      else firstMissing rest kw

/-- Lazy evaluables reachable from the claims, as freshly constructed
(their recorded call chain still empty; the chain mechanics are
modelled separately below): `arg.func` wrapping a plain callable with
optional default, and `arg.first` over already-normalized candidates
with optional default. -/
inductive LazyV where
  | lfunc (f : PyFunc) (dflt : Option PyVal)
  | lfirst (cands : List LazyV) (dflt : Option PyVal)

/-- A printable tag for a lazy object, standing in for the Python repr
that the `arg.first` failure message interpolates. -/
def LazyV.descr : LazyV → String
  | LazyV.lfunc _ _ => "arg.func"
  | LazyV.lfirst _ _ => "arg.first"

mutual

/-- Evaluation of a lazy object by `load` (`Lazy._load` with an empty
recorded chain, hence exactly `_call`).  `func._call` parses the given
keyword arguments against the wrapped callable strictly and without
extras; a BindError from that parse yields the constructor default when
one was supplied and is re-raised otherwise; the bound arguments are
then passed to the wrapped callable.  `first._call` returns the first
candidate result that is not a BindError, else the constructor default,
else a BindError built from the whole candidate list. -/
def loadLazy : LazyV → ArgMap → Call → Except Err PyVal
  | LazyV.lfunc f d, m, c =>
      match parseArgs f [] m false false with
      | Except.error (Err.bind k) =>
          (match d with
           | Option.some dv => Except.ok dv
           | Option.none => Except.error (Err.bind k))
      | Except.error e => Except.error e
      | Except.ok bound => f.body c bound
  | LazyV.lfirst cands d, m, c =>
      match loadFirst cands m c with
      | Option.some r => r
      | Option.none =>
          match d with
          | Option.some dv => Except.ok dv
          | Option.none =>
              Except.error (Err.bind (BindKind.firstNone (cands.map LazyV.descr)))

/-- The candidate loop of `first._call`: each candidate is loaded in
order; a BindError moves on to the next candidate, any other outcome is
returned; `none` means every candidate raised a BindError. -/
def loadFirst : List LazyV → ArgMap → Call → Option (Except Err PyVal)
  | [], _, _ => Option.none
  | lv :: rest, m, c =>
      match loadLazy lv m c with
      | Except.ok r => Option.some (Except.ok r)
      | Except.error (Err.bind _) => loadFirst rest m c
      | Except.error e => Option.some (Except.error e)

end

/-- The identity extractor `lambda arg: arg` built by `arg.val`. -/
def identFn (p : String) : PyFunc :=
  ⟨[⟨p, Option.none⟩],
   fun _ m =>
     match lookup m p with
     | Option.some v => Except.ok v
     | Option.none => Except.error (Err.typeErr "unbound")⟩

/-- The `arg.val(name, default)` shortcut: a lazy func over the identity
extractor named after the parameter. -/
def valL (p : String) (d : Option PyVal) : LazyV := LazyV.lfunc (identFn p) d

/-- The decorator chain (class `Args` and its subclasses): a linked
sequence of behavior nodes terminating in the plain wrapped callable. -/
inductive Node where
  | base (f : PyFunc)
  | validators (vfs : List LazyV) (inner : Node)
  | contexts (cfs : List (Option String × LazyV)) (inner : Node)
  | defaults (dfs : List (String × LazyV)) (inner : Node)
  | parametrize (p : String) (pf : LazyV) (inner : Node)

/-- The innermost plain callable of a chain (`Args._func`). -/
def Node.func : Node → PyFunc
  | Node.base f => f
  | Node.validators _ inner => Node.func inner
  | Node.contexts _ inner => Node.func inner
  | Node.defaults _ inner => Node.func inner
  | Node.parametrize _ _ inner => Node.func inner

/-- Entering a context manager object: a `ctx` value yields its stored
resource, anything else is a TypeError. -/
def enterCtx : PyVal → Except Err PyVal
  | PyVal.ctx r => Except.ok r
  | _ => Except.error (Err.typeErr "not a context manager")

/-- The terminal `Args._call` clause: in pre-func mode the wrapped
callable is skipped (returning `None`); otherwise the accumulated
mapping is re-parsed strictly (no extras, no tolerance) against the
wrapped callable and the callable is invoked on the bound result. -/
def runBase (f : PyFunc) (m : ArgMap) (c : Call) : Except Err PyVal × Call :=
  if c.is_pre_func then (Except.ok PyVal.none, c)
  else
    match parseArgs f [] m false false with
    | Except.error e => (Except.error e, c)
    | Except.ok bound => (f.body c bound, c)

/-- The loop of `Validators._call`: each validator is loaded against the
unchanged mapping inside the BindError-suppressing guard; a BindError is
skipped when the ambient call is in the relaxed mode modelled by
`partMode` and re-raised otherwise; other errors propagate. -/
def runValidatorsAux (next : ArgMap → Call → Except Err PyVal × Call) :
    List LazyV → ArgMap → Call → Except Err PyVal × Call
  | [], m, c => next m c
  | vf :: rest, m, c =>
      match loadLazy vf m c with
      | Except.ok _ => runValidatorsAux next rest m c
      | Except.error (Err.bind k) =>
          if c.partMode then runValidatorsAux next rest m c
          else (Except.error (Err.bind k), c)
      | Except.error e => (Except.error e, c)

/-- The loop of `Defaults._call`: each default function is loaded
against the mapping merged with the defaults computed so far, its result
stored under its label; the same BindError suppression applies; finally
the inner node runs on the merged mapping. -/
def runDefaultsAux (next : ArgMap → Call → Except Err PyVal × Call) :
    List (String × LazyV) → ArgMap → ArgMap → Call → Except Err PyVal × Call
  | [], m, acc, c => next (dictMerge m acc) c
  | (label, df) :: rest, m, acc, c =>
      match loadLazy df (dictMerge m acc) c with
      | Except.ok v => runDefaultsAux next rest m (dictSet acc label v) c
      | Except.error (Err.bind k) =>
          if c.partMode then runDefaultsAux next rest m acc c
          else (Except.error (Err.bind k), c)
      | Except.error e => (Except.error e, c)

/-- The loop of `Contexts._call`: each provider is loaded against the
mapping merged with the resources acquired so far and its result is
entered; named providers record the entered resource under their name;
the same BindError suppression applies; finally the inner node runs on
the merged mapping.  Release effects of the entered resources are not
modelled (no claim concerns them), so the exit stack is silent. -/
def runContextsAux (next : ArgMap → Call → Except Err PyVal × Call) :
    List (Option String × LazyV) → ArgMap → ArgMap → Call → Except Err PyVal × Call
  | [], m, acc, c => next (dictMerge m acc) c
  | (key, cf) :: rest, m, acc, c =>
      match
        (match loadLazy cf (dictMerge m acc) c with
         | Except.ok v => enterCtx v
         | Except.error e => Except.error e) with
      | Except.ok res =>
          runContextsAux next rest m
            (match key with
             | Option.some k2 => dictSet acc k2 res
             | Option.none => acc) c
      | Except.error (Err.bind k) =>
          if c.partMode then runContextsAux next rest m acc c
          else (Except.error (Err.bind k), c)
      | Except.error e => (Except.error e, c)

/-- The per-value loop of `Parametrize._call`: for each value, the four
parametrization attributes are set as a `Call.set` scope and the inner
node runs with the parametrized argument overridden to the value, each
result appended in iteration order. -/
def paramLoop (next : ArgMap → Call → Except Err PyVal × Call) (m : ArgMap)
    (p : String) (vsAll : List PyVal) :
    List PyVal → Nat → List PyVal → Call → Except Err PyVal × Call
  | [], _, acc, c => (Except.ok (PyVal.list acc), c)
  | v :: rest, i, acc, c =>
      match
        setScope
          ⟨Option.none, Option.none, Option.some (Option.some p),
           Option.some (Option.some v), Option.some (Option.some i),
           Option.some (Option.some (PyVal.list vsAll))⟩
          (fun c1 => next (dictSet m p v) c1) c with
      | (Except.ok rv, c2) => paramLoop next m p vsAll rest (i + 1) (acc ++ [rv]) c2
      | (Except.error e, c2) => (Except.error e, c2)

/-- The body of `Parametrize._call`: the whole parametrized run happens
inside the BindError-suppressing guard; the parametrization function is
loaded to obtain the value sequence and the per-value loop runs.  When a
BindError escapes the guarded block and the ambient call is in the
relaxed mode, execution falls through to the trailing statement that
delegates inward once with the mapping unchanged. -/
def runParamAux (next : ArgMap → Call → Except Err PyVal × Call)
    (p : String) (pf : LazyV) (m : ArgMap) (c : Call) : Except Err PyVal × Call :=
  match
    (match loadLazy pf m c with
     | Except.error e => (Except.error e, c)
     | Except.ok (PyVal.list vs) => paramLoop next m p vs vs 0 [] c
     | Except.ok _ => (Except.error (Err.typeErr "not iterable"), c)) with
  | (Except.error (Err.bind k), c2) =>
      if c2.partMode then next m c2 else (Except.error (Err.bind k), c2)
  | other => other

/-- The `_call` dispatch over the whole decorator chain. -/
def runNode : Node → ArgMap → Call → Except Err PyVal × Call
  | Node.base f => runBase f
  | Node.validators vfs inner => runValidatorsAux (runNode inner) vfs
  | Node.contexts cfs inner => fun m c => runContextsAux (runNode inner) cfs m [] c
  | Node.defaults dfs inner => fun m c => runDefaultsAux (runNode inner) dfs m [] c
  | Node.parametrize p pf inner => runParamAux (runNode inner) p pf

/-- The assertion message of the reentrancy check in `Args.__call__`. -/
def reentrantMsg : String := "Can only call Args class once in chain."

/-- The top-level entry `Args.__call__`, with the thread-local slot
passed explicitly as an `Option Call`: a second top-level call on the
same thread fails at once with the assertion error, leaving the active
call in place; otherwise a fresh call object is installed, the caller
arguments are parsed tolerantly with extras kept, the chain runs, and
the finally block clears the thread-local slot on every exit path. -/
def topCall (n : Node) (args : List PyVal) (kwargs : ArgMap) :
    Option Call → Except Err PyVal × Option Call
  | Option.some c => (Except.error (Err.assertFail reentrantMsg), Option.some c)
  | Option.none =>
      match parseArgs (Node.func n) args kwargs true true with
      | Except.error e => (Except.error e, Option.none)
      | Except.ok m => ((runNode n m Call.init).1, Option.none)

/-- The constructor check of `Parametrize.__init__`: the assert demands
exactly one parametrized argument, so zero arguments and two or more
arguments raise the same AssertionError at decoration time. -/
def mkParametrize (ps : List (String × LazyV)) (inner : Node) : Except Err Node :=
  match ps with
  | [kv] => Except.ok (Node.parametrize kv.1 kv.2 inner)
  | _ => Except.error (Err.assertFail "")

/-- The four-field parametrization override installed around each inner
call of a parametrize node, written out as the call object the inner
chain observes. -/
def paramScope (c : Call) (p : String) (v : PyVal) (i : Nat) (vs : List PyVal) : Call :=
  ⟨c.partMode, c.is_pre_func, Option.some p, Option.some v, Option.some i,
   Option.some (PyVal.list vs)⟩

/-! Model of the `Lazy` call-chain recorder itself (`__getattribute__`,
`__call__`, and the replay loop of `_load`), kept generic over the
objects the chain is replayed on: a type of values with an attribute
lookup, an application taking one opaque argument package, and the
distinguished empty argument package (the no-argument call).  Attribute
names range over the public names the recorder intercepts. -/

/-- One user operation recorded on a lazy builder: an attribute access
or an invocation carrying its argument package. -/
inductive LOp (A : Type) where
  | attr (n : String)
  | invoke (a : A)

/-- One entry of the recorded call chain: optional operation name and
optional argument package, exactly the `(name, args-and-kwargs)` shape
of the source triples (`args` and `kwargs` are always both absent or
both present there, so they are packed together). -/
abbrev Step (A : Type) := Option String × Option A

/-- How the recorder extends the chain.  An attribute access appends a
plain named step.  An invocation rewrites the last recorded step,
keeping only its name and installing the new argument package; with no
step recorded yet it appends the standalone direct-invocation step. -/
def pushOp {A : Type} (chain : List (Step A)) : LOp A → List (Step A)
  | LOp.attr n => chain ++ [(Option.some n, Option.none)]
  | LOp.invoke a =>
      match chain.getLast? with
      | Option.none => [(Option.none, Option.some a)]
      | Option.some lastS => chain.dropLast ++ [(lastS.1, Option.some a)]

/-- The chain recorded after a sequence of user operations. -/
def buildChain {A : Type} (ops : List (LOp A)) : List (Step A) :=
  ops.foldl pushOp []

/-- An object model the chain is replayed on: attribute lookup,
invocation, and the empty argument package. -/
structure ObjModel (V A : Type) where
  attrF : V → String → V
  appF : V → A → V
  emptyA : A

/-- One iteration of the replay loop of `_load`: a nameless step invokes
the current value with no arguments, a named step without an argument
package is a plain lookup, and a named step with a package is a lookup
followed by invocation on the recorded arguments. -/
def replayStep {V A : Type} (M : ObjModel V A) (v : V) : Step A → V
  | (Option.none, _) => M.appF v M.emptyA
  | (Option.some n, Option.none) => M.attrF v n
  | (Option.some n, Option.some a) => M.appF (M.attrF v n) a

/-- The replay loop of `_load` over a whole recorded chain. -/
def replayChain {V A : Type} (M : ObjModel V A) (v : V) (chain : List (Step A)) : V :=
  chain.foldl (replayStep M) v

/-- Performing the same user operations directly on a base value. -/
def directEval {V A : Type} (M : ObjModel V A) (v : V) (ops : List (LOp A)) : V :=
  ops.foldl
    (fun v2 op =>
      match op with
      | LOp.attr n => M.attrF v2 n
      | LOp.invoke a => M.appF v2 a) v

/-- Operation sequences in which every invocation immediately follows an
attribute access (so no invocation rewrites the record of an earlier
invocation). -/
inductive WFChain {A : Type} : List (LOp A) → Prop
  | nil : WFChain []
  | attr (n : String) {rest : List (LOp A)} : WFChain rest → WFChain (LOp.attr n :: rest)
  | attrInvoke (n : String) (a : A) {rest : List (LOp A)} :
      WFChain rest → WFChain (LOp.attr n :: LOp.invoke a :: rest)

/-- Well-formed recorded sequences: either of the shape `WFChain`, or a
leading direct invocation that carries the empty argument package
followed by a `WFChain` tail. -/
inductive WFTop {A : Type} (e : A) : List (LOp A) → Prop
  | plain {ops : List (LOp A)} : WFChain ops → WFTop e ops
  | leadCall {rest : List (LOp A)} : WFChain rest → WFTop e (LOp.invoke e :: rest)

/-- Free object model used for concrete counterexamples: values are the
formal terms generated from a base object by attribute lookups and
applications, argument packages are numbered (`0` is the empty
package). -/
inductive FreeV where
  | base
  | fattr (v : FreeV) (n : String)
  | fapp (v : FreeV) (a : Nat)
  deriving DecidableEq

/-- The free object model. -/
def freeM : ObjModel FreeV Nat := ⟨FreeV.fattr, FreeV.fapp, 0⟩

/-! Helper lemmas about dict lookup, filtering and the binding loop. -/

/-- Lookup through a filter whose predicate only inspects the key. -/
theorem lookup_filterKey (q : String → Bool) (kw : ArgMap) (k : String) :
    lookup (kw.filter (fun kv => q kv.1)) k
      = if q k then lookup kw k else Option.none := by
  induction kw with
  | nil => cases hq : q k <;> simp [lookup, hq]
  | cons kv rest ih =>
      obtain ⟨k2, v2⟩ := kv
      by_cases he : k2 = k
      · subst he
        cases hq : q k2 <;> simp [List.filter_cons, hq, lookup, ih]
      · cases hq : q k2 <;> simp [List.filter_cons, hq, lookup, he, ih]

/-- Lookup distributes over append, preferring the left list. -/
theorem lookup_append (a b : ArgMap) (k : String) :
    lookup (a ++ b) k
      = match lookup a k with
        | Option.some v => Option.some v
        | Option.none => lookup b k := by
  induction a with
  | nil => simp [lookup]
  | cons kv rest ih =>
      obtain ⟨k2, v2⟩ := kv
      by_cases he : k2 = k <;> simp [lookup, he, ih]

/-- Strict binding with no positional arguments raises a BindError
naming the first required parameter that is missing, whenever the two
mappings agree on every declared parameter. -/
theorem bindLoop_missing :
    ∀ (params : List Param) (kwF mm : ArgMap) (p : String),
      (∀ pr ∈ params, lookup kwF pr.name = lookup mm pr.name) →
      firstMissing params mm = Option.some p →
      bindLoop params [] kwF false = Except.error (Err.bind (BindKind.missing p)) := by
  intro params
  induction params with
  | nil => intro kwF mm p _ hf; simp [firstMissing] at hf
  | cons pr rest ih =>
      intro kwF mm p h hf
      have hpr : lookup kwF pr.name = lookup mm pr.name := h pr (List.mem_cons_self _ _)
      have hrest : ∀ pr2 ∈ rest, lookup kwF pr2.name = lookup mm pr2.name :=
        fun pr2 h2 => h pr2 (List.mem_cons_of_mem _ h2)
      cases hd : pr.dflt with
      | some dv =>
          have hf2 : firstMissing rest mm = Option.some p := by
            simpa [firstMissing, hd] using hf
          cases hkw : lookup kwF pr.name with
          | some v => simp [bindLoop, hkw, ih kwF mm p hrest hf2]
          | none => simp [bindLoop, hkw, hd, ih kwF mm p hrest hf2]
      | none =>
          cases hmm : lookup mm pr.name with
          | some v =>
              have hf2 : firstMissing rest mm = Option.some p := by
                simpa [firstMissing, hd, hmm] using hf
              have hkw : lookup kwF pr.name = Option.some v := by rw [hpr, hmm]
              simp [bindLoop, hkw, ih kwF mm p hrest hf2]
          | none =>
              have hp : pr.name = p := by
                simpa [firstMissing, hd, hmm] using hf
              have hkw : lookup kwF pr.name = Option.none := by rw [hpr, hmm]
              subst hp
              simp [bindLoop, hkw, hd]

/-- Tolerant binding with no positional arguments never fails. -/
theorem bindLoop_noPos_ok :
    ∀ (params : List Param) (kwF : ArgMap),
      ∃ l, bindLoop params [] kwF true = Except.ok l := by
  intro params
  induction params with
  | nil => intro kwF; exact ⟨[], rfl⟩
  | cons pr rest ih =>
      intro kwF
      obtain ⟨l, hl⟩ := ih kwF
      cases hkw : lookup kwF pr.name with
      | some v => exact ⟨(pr.name, v) :: l, by simp [bindLoop, hkw, hl]⟩
      | none =>
          cases hd : pr.dflt with
          | some d => exact ⟨(pr.name, d) :: l, by simp [bindLoop, hkw, hd, hl]⟩
          | none => exact ⟨l, by simp [bindLoop, hkw, hd, hl]⟩

/-- The binding loop only produces keys drawn from the declared
parameter names. -/
theorem bindLoop_keys :
    ∀ (params : List Param) (kwF : ArgMap) (pm : Bool) (l : ArgMap) (q : String),
      bindLoop params [] kwF pm = Except.ok l →
      (∀ pr ∈ params, pr.name ≠ q) →
      lookup l q = Option.none := by
  intro params
  induction params with
  | nil =>
      intro kwF pm l q hb _
      have hl : l = [] := by simpa [bindLoop] using hb.symm
      subst hl
      rfl
  | cons pr rest ih =>
      intro kwF pm l q hb hq
      have hqpr : pr.name ≠ q := hq pr (List.mem_cons_self _ _)
      have hqrest : ∀ pr2 ∈ rest, pr2.name ≠ q :=
        fun pr2 h2 => hq pr2 (List.mem_cons_of_mem _ h2)
      cases hkw : lookup kwF pr.name with
      | some v =>
          cases hrec : bindLoop rest [] kwF pm with
          | error e => simp [bindLoop, hkw, hrec] at hb
          | ok l2 =>
              have hl : l = (pr.name, v) :: l2 := by
                simpa [bindLoop, hkw, hrec] using hb.symm
              subst hl
              simp [lookup, hqpr, ih kwF pm l2 q hrec hqrest]
      | none =>
          cases hd : pr.dflt with
          | some d =>
              cases hrec : bindLoop rest [] kwF pm with
              | error e => simp [bindLoop, hkw, hd, hrec] at hb
              | ok l2 =>
                  have hl : l = (pr.name, d) :: l2 := by
                    simpa [bindLoop, hkw, hd, hrec] using hb.symm
                  subst hl
                  simp [lookup, hqpr, ih kwF pm l2 q hrec hqrest]
          | none =>
              cases pm with
              | true =>
                  simp [bindLoop, hkw, hd] at hb
                  exact ih kwF true l q hb hqrest
              | false => simp [bindLoop, hkw, hd] at hb

/-- Scanning for the first missing required parameter ignores a leading
mapping entry whose key is not a declared parameter name. -/
theorem firstMissing_irrel :
    ∀ (params : List Param) (mm : ArgMap) (k : String) (v : PyVal),
      (∀ pr ∈ params, pr.name ≠ k) →
      firstMissing params ((k, v) :: mm) = firstMissing params mm := by
  intro params
  induction params with
  | nil => intro mm k v _; rfl
  | cons pr rest ih =>
      intro mm k v hk
      have h1 : pr.name ≠ k := hk pr (List.mem_cons_self _ _)
      have h2 : k ≠ pr.name := fun h => h1 h.symm
      have h4 : lookup ((k, v) :: mm) pr.name = lookup mm pr.name := by
        simp [lookup, h2]
      simp only [firstMissing, h4]
      rw [ih mm k v (fun pr2 hm => hk pr2 (List.mem_cons_of_mem _ hm))]

/-- The tolerant no-positional bind followed by appending the extra
keyword arguments preserves which declared parameter a strict scan
reports as first missing, relative to the original keyword mapping. -/
theorem fm_preserved :
    ∀ (params : List Param) (kwF ex kw l : ArgMap),
      (params.map Param.name).Nodup →
      bindLoop params [] kwF true = Except.ok l →
      (∀ pr ∈ params, lookup kwF pr.name = lookup kw pr.name) →
      (∀ pr ∈ params, lookup ex pr.name = Option.none) →
      firstMissing params (l ++ ex) = firstMissing params kw := by
  intro params
  induction params with
  | nil => intro kwF ex kw l _ _ _ _; rfl
  | cons pr rest ih =>
      intro kwF ex kw l hnd hb hagree hex
      have hpr : lookup kwF pr.name = lookup kw pr.name := hagree pr (List.mem_cons_self _ _)
      have hagree2 : ∀ pr2 ∈ rest, lookup kwF pr2.name = lookup kw pr2.name :=
        fun pr2 h2 => hagree pr2 (List.mem_cons_of_mem _ h2)
      have hex2 : ∀ pr2 ∈ rest, lookup ex pr2.name = Option.none :=
        fun pr2 h2 => hex pr2 (List.mem_cons_of_mem _ h2)
      have hnotin : pr.name ∉ rest.map Param.name := (List.nodup_cons.mp hnd).1
      have hnd2 : (rest.map Param.name).Nodup := (List.nodup_cons.mp hnd).2
      have hne : ∀ pr2 ∈ rest, pr2.name ≠ pr.name := by
        intro pr2 h2 heq
        exact hnotin (heq ▸ List.mem_map_of_mem Param.name h2)
      cases hkw : lookup kwF pr.name with
      | some v =>
          cases hrec : bindLoop rest [] kwF true with
          | error e => simp [bindLoop, hkw, hrec] at hb
          | ok l2 =>
              have hl : l = (pr.name, v) :: l2 := by
                simpa [bindLoop, hkw, hrec] using hb.symm
              subst hl
              have hkkw : lookup kw pr.name = Option.some v := hpr.symm.trans hkw
              have hself : lookup ((pr.name, v) :: (l2 ++ ex)) pr.name = Option.some v := by
                simp [lookup]
              have hirr : firstMissing rest ((pr.name, v) :: (l2 ++ ex))
                  = firstMissing rest (l2 ++ ex) :=
                firstMissing_irrel rest (l2 ++ ex) pr.name v hne
              simp only [List.cons_append]
              simp [firstMissing, hself, hkkw, hirr]
              exact ih kwF ex kw l2 hnd2 hrec hagree2 hex2
      | none =>
          cases hd : pr.dflt with
          | some d =>
              cases hrec : bindLoop rest [] kwF true with
              | error e => simp [bindLoop, hkw, hd, hrec] at hb
              | ok l2 =>
                  have hl : l = (pr.name, d) :: l2 := by
                    simpa [bindLoop, hkw, hd, hrec] using hb.symm
                  subst hl
                  have hself : lookup ((pr.name, d) :: (l2 ++ ex)) pr.name = Option.some d := by
                    simp [lookup]
                  have hirr : firstMissing rest ((pr.name, d) :: (l2 ++ ex))
                      = firstMissing rest (l2 ++ ex) :=
                    firstMissing_irrel rest (l2 ++ ex) pr.name d hne
                  simp only [List.cons_append]
                  simp [firstMissing, hself, hd, hirr]
                  exact ih kwF ex kw l2 hnd2 hrec hagree2 hex2
          | none =>
              have hb2 : bindLoop rest [] kwF true = Except.ok l := by
                simpa [bindLoop, hkw, hd] using hb
              have hlnone : lookup l pr.name = Option.none :=
                bindLoop_keys rest kwF true l pr.name hb2 hne
              have happ : lookup (l ++ ex) pr.name = Option.none := by
                rw [lookup_append, hlnone]
                exact hex pr (List.mem_cons_self _ _)
              have hkkw : lookup kw pr.name = Option.none := hpr.symm.trans hkw
              simp [firstMissing, happ, hkkw, hd]

/-- A strict parse with no positional arguments fails with a BindError
naming the first missing required parameter. -/
theorem parseArgs_strict_missing (f : PyFunc) (mm : ArgMap) (p : String)
    (hf : firstMissing f.params mm = Option.some p) :
    parseArgs f [] mm false false = Except.error (Err.bind (BindKind.missing p)) := by
  have hagree : ∀ pr ∈ f.params,
      lookup (mm.filter (fun kv => f.params.any (fun pr2 => pr2.name == kv.1))) pr.name
        = lookup mm pr.name := by
    intro pr hpr
    have hdecl : (f.params.any fun pr2 => pr2.name == pr.name) = true :=
      List.any_eq_true.mpr ⟨pr, hpr, by simp⟩
    simpa [hdecl] using
      lookup_filterKey (fun k2 => f.params.any fun pr2 => pr2.name == k2) mm pr.name
  have hb := bindLoop_missing f.params _ mm p hagree hf
  simp [parseArgs, hb]

/-- The terminal strict re-bind at a base node surfaces the first
missing required parameter whenever the chain is not in pre-func
mode. -/
theorem runBase_missing (f : PyFunc) (mm : ArgMap) (c : Call) (p : String)
    (hpre : c.is_pre_func = false)
    (hf : firstMissing f.params mm = Option.some p) :
    runNode (Node.base f) mm c
      = (Except.error (Err.bind (BindKind.missing p)), c) := by
  simp [runNode, runBase, hpre, parseArgs_strict_missing f mm p hf]

/-- The tolerant entry parse of the top-level call always succeeds with
no positional arguments, and the mapping it produces leaves a strict
scan for the first missing required parameter unchanged relative to the
caller keyword arguments. -/
theorem parseArgs_entry (f : PyFunc) (kw : ArgMap)
    (hnd : (f.params.map Param.name).Nodup) :
    ∃ m2, parseArgs f [] kw true true = Except.ok m2 ∧
      firstMissing f.params m2 = firstMissing f.params kw := by
  obtain ⟨l, hl⟩ :=
    bindLoop_noPos_ok f.params (kw.filter fun kv => f.params.any fun pr2 => pr2.name == kv.1)
  refine ⟨l ++ kw.filter (fun kv => !(f.params.any fun pr2 => pr2.name == kv.1)), ?_, ?_⟩
  · simp [parseArgs, hl]
  · apply fm_preserved f.params _ _ kw l hnd hl
    · intro pr hpr
      have hdecl : (f.params.any fun pr2 => pr2.name == pr.name) = true :=
        List.any_eq_true.mpr ⟨pr, hpr, by simp⟩
      simpa [hdecl] using
        lookup_filterKey (fun k2 => f.params.any fun pr2 => pr2.name == k2) kw pr.name
    · intro pr hpr
      have hdecl : (f.params.any fun pr2 => pr2.name == pr.name) = true :=
        List.any_eq_true.mpr ⟨pr, hpr, by simp⟩
      simpa [hdecl] using
        lookup_filterKey (fun k2 => !(f.params.any fun pr2 => pr2.name == k2)) kw pr.name

/-- Replaying a chain recorded from a `WFChain` operation suffix on top
of an already-recorded prefix agrees with evaluating the suffix directly
on the replay of the prefix. -/
theorem buildChain_go {V A : Type} (M : ObjModel V A) :
    ∀ {ops : List (LOp A)}, WFChain ops → ∀ (c : List (Step A)) (v : V),
      replayChain M v (List.foldl pushOp c ops)
        = directEval M (replayChain M v c) ops := by
  intro ops h
  induction h with
  | nil => intro c v; rfl
  | attr n hr ih =>
      intro c v
      simp only [List.foldl_cons]
      rw [show pushOp c (LOp.attr n) = c ++ [(Option.some n, Option.none)] from rfl]
      rw [ih]
      simp [replayChain, List.foldl_append, directEval, replayStep]
  | attrInvoke n a hr ih =>
      intro c v
      simp only [List.foldl_cons]
      have hpush : pushOp (pushOp c (LOp.attr n)) (LOp.invoke a)
          = c ++ [(Option.some n, Option.some a)] := by
        simp [pushOp]
      rw [hpush, ih]
      simp [replayChain, List.foldl_append, directEval, replayStep]

/-- The per-value parametrize loop, when the inner chain succeeds at
every value and returns the call state it was given, produces the
ordered list of the inner results and restores the call state. -/
theorem paramLoop_all_ok (next : ArgMap → Call → Except Err PyVal × Call)
    (m : ArgMap) (p : String) (vs : List PyVal) (c : Call) (r : Nat → PyVal) :
    ∀ (rest : List PyVal) (j : Nat) (acc : List PyVal),
      (∀ i, i < rest.length →
        next (dictSet m p (rest.getD i PyVal.none))
            (paramScope c p (rest.getD i PyVal.none) (j + i) vs)
          = (Except.ok (r (j + i)), paramScope c p (rest.getD i PyVal.none) (j + i) vs)) →
      paramLoop next m p vs rest j acc c
        = (Except.ok (PyVal.list (acc ++ (List.range rest.length).map (fun i => r (j + i)))), c) := by
  intro rest
  induction rest with
  | nil => intro j acc _; simp [paramLoop]
  | cons v rest ih =>
      intro j acc h
      have h0 : next (dictSet m p v) (paramScope c p v j vs)
          = (Except.ok (r j), paramScope c p v j vs) := by
        have h1 := h 0 (by simp)
        rw [Nat.add_zero] at h1
        exact h1
      have hset :
          setScope
            ⟨Option.none, Option.none, Option.some (Option.some p),
             Option.some (Option.some v), Option.some (Option.some j),
             Option.some (Option.some (PyVal.list vs))⟩
            (fun c1 => next (dictSet m p v) c1) c
          = (Except.ok (r j), c) := by
        simp only [setScope]
        rw [show applySet c
            ⟨Option.none, Option.none, Option.some (Option.some p),
             Option.some (Option.some v), Option.some (Option.some j),
             Option.some (Option.some (PyVal.list vs))⟩ = paramScope c p v j vs from rfl]
        rw [h0]
        rfl
      have hrest : ∀ i, i < rest.length →
          next (dictSet m p (rest.getD i PyVal.none))
              (paramScope c p (rest.getD i PyVal.none) (j + 1 + i) vs)
            = (Except.ok (r (j + 1 + i)),
               paramScope c p (rest.getD i PyVal.none) (j + 1 + i) vs) := by
        intro i hi
        have h2 := h (i + 1) (by simpa using Nat.succ_lt_succ hi)
        have e1 : j + (i + 1) = j + 1 + i := by omega
        rw [e1] at h2
        exact h2
      simp only [paramLoop]
      rw [hset]
      show paramLoop next m p vs rest (j + 1) (acc ++ [r j]) c
          = (Except.ok (PyVal.list
              (acc ++ (List.range (rest.length + 1)).map (fun i => r (j + i)))), c)
      rw [ih (j + 1) (acc ++ [r j]) hrest]
      have hmap : (List.range (rest.length + 1)).map (fun i => r (j + i))
          = r j :: (List.range rest.length).map (fun i => r (j + 1 + i)) := by
        rw [List.range_succ_eq_map]
        simp only [List.map_cons, List.map_map, Nat.add_zero]
        refine congrArg (fun t => r j :: t) ?_
        refine List.map_congr_left ?_
        intro i _
        simp [Function.comp]
        refine congrArg r ?_
        omega
      rw [hmap]
      simp [List.append_assoc]

/-! Claim theorems. -/

/-- Override used to exhibit the behavior of the Call.set scope guard:
a single parametrization attribute is set. -/
def ovX : CallSet :=
  ⟨Option.none, Option.none, Option.some (Option.some "x"),
   Option.none, Option.none, Option.none⟩

/-- C1: the scope guard returned by Call.set snapshots the current
attribute values and applies the overrides, and it restores the snapshot
when the scope body returns normally - but, contrary to the claim, when
the body raises, the statements after the yield are skipped and the
overridden attributes are left in place, so nothing is restored on the
exceptional exit. -/
theorem call_set_restore_bug :
    (setScope ovX (fun c => (Except.ok PyVal.none, c)) Call.init
       = (Except.ok PyVal.none, Call.init))
    ∧ (setScope ovX (fun c => (Except.error (Err.user "boom"), c)) Call.init
       = (Except.error (Err.user "boom"), applySet Call.init ovX))
    ∧ applySet Call.init ovX ≠ Call.init := by
  refine ⟨rfl, rfl, ?_⟩
  intro h
  have h2 := congrArg Call.parametrize_arg h
  simp [applySet, ovX, Call.init] at h2

/-- C10: constructing a parametrize node demands exactly one
parametrized argument - zero arguments and two or more arguments fail
with the same assertion error at decoration time, while exactly one
argument succeeds. -/
theorem parametrize_arity (inner : Node) :
    mkParametrize [] inner = Except.error (Err.assertFail "")
    ∧ (∀ (a b : String × LazyV) (rest : List (String × LazyV)),
        mkParametrize (a :: b :: rest) inner = Except.error (Err.assertFail ""))
    ∧ ∀ kv : String × LazyV,
        mkParametrize [kv] inner = Except.ok (Node.parametrize kv.1 kv.2 inner) := by
  exact ⟨rfl, fun a b rest => rfl, fun kv => rfl⟩

/-- C7: evaluating a value reference `arg.val(name, default)` against an
argument mapping returns the value bound to the name when present, else
the default when one was supplied, and raises a BindError naming the
parameter otherwise. -/
theorem val_semantics (p : String) (d : Option PyVal) (m : ArgMap) (c : Call) :
    loadLazy (valL p d) m c =
      match lookup m p with
      | Option.some v => Except.ok v
      | Option.none =>
          match d with
          | Option.some dv => Except.ok dv
          | Option.none => Except.error (Err.bind (BindKind.missing p)) := by
  cases hv : lookup m p with
  | some v =>
      have hf : lookup (List.filter (fun kv => p == kv.1) m) p = Option.some v := by
        have := lookup_filterKey (fun k2 => p == k2) m p
        simpa [hv] using this
      simp [loadLazy, valL, identFn, parseArgs, bindLoop, hf, lookup]
  | none =>
      have hf : lookup (List.filter (fun kv => p == kv.1) m) p = Option.none := by
        have := lookup_filterKey (fun k2 => p == k2) m p
        simpa [hv] using this
      cases d with
      | some dv => simp [loadLazy, valL, identFn, parseArgs, bindLoop, hf]
      | none => simp [loadLazy, valL, identFn, parseArgs, bindLoop, hf]

/-- C4: the top-level call operation fails with the assertion error when
a call object is already installed in the thread-local slot (leaving
that call in place); otherwise the thread-local slot is cleared before
the call completes on every path, and on a successful tolerant
extra-keeping entry parse the result is that of running the chain on the
parsed mapping with a freshly constructed call object. -/
theorem top_call_spec :
    (∀ (n : Node) (args : List PyVal) (kwargs : ArgMap) (c : Call),
        topCall n args kwargs (Option.some c)
          = (Except.error (Err.assertFail reentrantMsg), Option.some c))
    ∧ (∀ (n : Node) (args : List PyVal) (kwargs : ArgMap),
        (topCall n args kwargs Option.none).2 = Option.none)
    ∧ ∀ (n : Node) (args : List PyVal) (kwargs : ArgMap) (m : ArgMap),
        parseArgs (Node.func n) args kwargs true true = Except.ok m →
        topCall n args kwargs Option.none
          = ((runNode n m Call.init).1, Option.none) := by
  refine ⟨fun n a k c => rfl, ?_, ?_⟩
  · intro n a k
    simp only [topCall]
    cases parseArgs (Node.func n) a k true true <;> rfl
  · intro n a k m h
    simp [topCall, h]

/-- Concrete callable used by several witnesses: one required parameter
named p, body returning None. -/
def fP : PyFunc := ⟨[⟨"p", Option.none⟩], fun _ _ => Except.ok PyVal.none⟩

/-- Witness for C4: a concrete invocation through the third conjunct of
the top-level call specification. -/
theorem top_call_spec_witness :
    topCall (Node.base fP) [] [("p", PyVal.int 1)] Option.none
      = ((runNode (Node.base fP) [("p", PyVal.int 1)] Call.init).1, Option.none) :=
  top_call_spec.2.2 (Node.base fP) [] [("p", PyVal.int 1)] [("p", PyVal.int 1)] rfl

/-- C2 (amended): for every well-formed recorded operation sequence -
one in which each invocation immediately follows an attribute access,
except possibly a leading direct invocation carrying the empty argument
package - replaying the recorded chain against a base value equals
performing the same attribute accesses and invocations directly on the
base value, in any object model. -/
theorem lazy_replay_eq_direct {V A : Type} (M : ObjModel V A) (ops : List (LOp A))
    (h : WFTop M.emptyA ops) (v : V) :
    replayChain M v (buildChain ops) = directEval M v ops := by
  cases h with
  | plain hops => simpa [buildChain] using buildChain_go M hops [] v
  | leadCall hrest =>
      show replayChain M v (List.foldl pushOp [] (LOp.invoke M.emptyA :: _)) = _
      simp only [List.foldl_cons]
      rw [show pushOp ([] : List (Step A)) (LOp.invoke M.emptyA)
          = [(Option.none, Option.some M.emptyA)] from rfl]
      rw [buildChain_go M hrest]
      simp [replayChain, directEval, replayStep]

/-- Witness for C2 (amended): a chained pair of no-argument method
calls, replayed in the free object model, agrees with direct
evaluation. -/
theorem lazy_replay_eq_direct_witness :
    replayChain freeM FreeV.base
        (buildChain [LOp.attr "upper", LOp.invoke 0, LOp.attr "lower", LOp.invoke 0])
      = directEval freeM FreeV.base
          [LOp.attr "upper", LOp.invoke 0, LOp.attr "lower", LOp.invoke 0] :=
  lazy_replay_eq_direct freeM _
    (WFTop.plain (WFChain.attrInvoke "upper" 0 (WFChain.attrInvoke "lower" 0 WFChain.nil)))
    FreeV.base

/-- Counterexample to C2 as stated: a direct invocation recorded before
any attribute access replays as a call with no arguments, and a second
invocation in succession overwrites the arguments of the first, so in
the free object model both recorded sequences replay to a value
different from direct evaluation. -/
theorem lazy_replay_counterexample :
    (replayChain freeM FreeV.base (buildChain [LOp.invoke 1])
       ≠ directEval freeM FreeV.base [LOp.invoke 1])
    ∧ (replayChain freeM FreeV.base
          (buildChain [LOp.attr "f", LOp.invoke 1, LOp.invoke 2])
       ≠ directEval freeM FreeV.base [LOp.attr "f", LOp.invoke 1, LOp.invoke 2]) := by
  exact ⟨by decide, by decide⟩

/-- C9: two invocations in succession leave a single recorded step
holding only the later argument package, whatever was recorded before;
a standalone direct invocation records its argument package; and
replaying the standalone step invokes the value on the empty argument
package, discarding what was recorded. -/
theorem lazy_call_overwrite_discard {A : Type} :
    (∀ (c : List (Step A)) (a b : A),
        pushOp (pushOp c (LOp.invoke a)) (LOp.invoke b) = pushOp c (LOp.invoke b))
    ∧ (∀ a : A, buildChain [LOp.invoke a] = [(Option.none, Option.some a)])
    ∧ ∀ {V : Type} (M : ObjModel V A) (v : V) (a : A),
        replayChain M v [(Option.none, Option.some a)] = M.appF v M.emptyA := by
  refine ⟨?_, fun a => rfl, fun M v a => rfl⟩
  intro c a b
  induction c using List.reverseRecOn with
  | nil => rfl
  | append_singleton c x _ =>
      simp [pushOp, List.getLast?_concat, List.dropLast_concat]

/-- C5: inside a validators, defaults, or contexts node, a BindError
raised while evaluating the configured function of the leading entry is
swallowed - and that entry skipped - exactly when the ambient call has
the relaxed binding flag set, and propagates to the caller unchanged
otherwise. -/
theorem bind_suppression_spec (g : LazyV) (inner : Node) (m : ArgMap) (c : Call)
    (b : BindKind) (h : loadLazy g m c = Except.error (Err.bind b)) :
    (∀ rest : List LazyV,
        runNode (Node.validators (g :: rest) inner) m c =
          if c.partMode then runNode (Node.validators rest inner) m c
          else (Except.error (Err.bind b), c))
    ∧ (∀ (label : String) (rest : List (String × LazyV)),
        runNode (Node.defaults ((label, g) :: rest) inner) m c =
          if c.partMode then runNode (Node.defaults rest inner) m c
          else (Except.error (Err.bind b), c))
    ∧ ∀ (key : Option String) (rest : List (Option String × LazyV)),
        runNode (Node.contexts ((key, g) :: rest) inner) m c =
          if c.partMode then runNode (Node.contexts rest inner) m c
          else (Except.error (Err.bind b), c) := by
  refine ⟨?_, ?_, ?_⟩
  · intro rest
    simp [runNode, runValidatorsAux, h]
  · intro label rest
    have h2 : loadLazy g (dictMerge m []) c = Except.error (Err.bind b) := by
      simpa [dictMerge] using h
    simp [runNode, runDefaultsAux, h2]
  · intro key rest
    have h2 : loadLazy g (dictMerge m []) c = Except.error (Err.bind b) := by
      simpa [dictMerge] using h
    simp [runNode, runContextsAux, h2]

/-- Constant callable with no parameters, used by witnesses. -/
def constF : PyFunc := ⟨[], fun _ _ => Except.ok (PyVal.int 7)⟩

/-- Witness for C5: a validator referencing a missing argument either
propagates its BindError (flag clear) or is skipped (flag set). -/
theorem bind_suppression_witness :
    runNode (Node.validators [valL "x" Option.none] (Node.base constF)) [] Call.init
      = (Except.error (Err.bind (BindKind.missing "x")), Call.init)
    ∧ runNode (Node.validators [valL "x" Option.none] (Node.base constF)) []
          ⟨true, false, Option.none, Option.none, Option.none, Option.none⟩
      = runNode (Node.validators [] (Node.base constF)) []
          ⟨true, false, Option.none, Option.none, Option.none, Option.none⟩ := by
  constructor
  · exact (bind_suppression_spec (valL "x" Option.none) (Node.base constF) []
      Call.init (BindKind.missing "x") rfl).1 []
  · exact (bind_suppression_spec (valL "x" Option.none) (Node.base constF) []
      ⟨true, false, Option.none, Option.none, Option.none, Option.none⟩
      (BindKind.missing "x") rfl).1 []

/-- Candidates that all raise BindErrors are skipped by the first
selector loop. -/
theorem loadFirst_prefix_bind :
    ∀ (pre rest2 : List LazyV) (m : ArgMap) (c : Call),
      (∀ u ∈ pre, ∃ k, loadLazy u m c = Except.error (Err.bind k)) →
      loadFirst (pre ++ rest2) m c = loadFirst rest2 m c := by
  intro pre
  induction pre with
  | nil => intro rest2 m c _; rfl
  | cons u pre2 ih =>
      intro rest2 m c h
      obtain ⟨k, hk⟩ := h u (List.mem_cons_self _ _)
      simp [loadFirst, hk, ih rest2 m c (fun u2 h2 => h u2 (List.mem_cons_of_mem _ h2))]

/-- When every candidate raises a BindError the selector loop is
exhausted. -/
theorem loadFirst_all_bind :
    ∀ (cands : List LazyV) (m : ArgMap) (c : Call),
      (∀ u ∈ cands, ∃ k, loadLazy u m c = Except.error (Err.bind k)) →
      loadFirst cands m c = Option.none := by
  intro cands m c
  induction cands with
  | nil => intro _; rfl
  | cons u rest ih =>
      intro h
      obtain ⟨k, hk⟩ := h u (List.mem_cons_self _ _)
      simp [loadFirst, hk, ih (fun u2 h2 => h u2 (List.mem_cons_of_mem _ h2))]

/-- C8: evaluating a first-available selector returns the outcome of the
first candidate, in order, whose evaluation does not raise a BindError;
when every candidate raises a BindError it returns the supplied default,
and with no default it raises a BindError built from the whole attempted
candidate list. -/
theorem first_semantics :
    (∀ (pre : List LazyV) (lv : LazyV) (post : List LazyV) (d : Option PyVal)
        (m : ArgMap) (c : Call) (r : Except Err PyVal),
        (∀ u ∈ pre, ∃ k, loadLazy u m c = Except.error (Err.bind k)) →
        loadLazy lv m c = r →
        (∀ k, r ≠ Except.error (Err.bind k)) →
        loadLazy (LazyV.lfirst (pre ++ lv :: post) d) m c = r)
    ∧ ∀ (cands : List LazyV) (d : Option PyVal) (m : ArgMap) (c : Call),
        (∀ u ∈ cands, ∃ k, loadLazy u m c = Except.error (Err.bind k)) →
        loadLazy (LazyV.lfirst cands d) m c =
          match d with
          | Option.some dv => Except.ok dv
          | Option.none =>
              Except.error (Err.bind (BindKind.firstNone (cands.map LazyV.descr))) := by
  constructor
  · intro pre lv post d m c r hpre hlv hnb
    subst hlv
    have hskip := loadFirst_prefix_bind pre (lv :: post) m c hpre
    cases hr : loadLazy lv m c with
    | ok x => simp [loadLazy, hskip, loadFirst, hr]
    | error e =>
        cases e with
        | bind k => exact absurd hr (hnb k)
        | typeErr s => simp [loadLazy, hskip, loadFirst, hr]
        | assertFail s => simp [loadLazy, hskip, loadFirst, hr]
        | user s => simp [loadLazy, hskip, loadFirst, hr]
  · intro cands d m c h
    have hnone := loadFirst_all_bind cands m c h
    cases d with
    | some dv => simp [loadLazy, hnone]
    | none => simp [loadLazy, hnone]

/-- Witness for C8: with only b bound, the selector over the references
to a and b yields the value of b; with nothing bound it yields the
default. -/
theorem first_semantics_witness :
    loadLazy (LazyV.lfirst [valL "a" Option.none, valL "b" Option.none] Option.none)
        [("b", PyVal.int 2)] Call.init = Except.ok (PyVal.int 2)
    ∧ loadLazy (LazyV.lfirst [valL "a" Option.none] (Option.some (PyVal.str "d")))
        [] Call.init = Except.ok (PyVal.str "d") := by
  constructor
  · exact first_semantics.1 [valL "a" Option.none] (valL "b" Option.none) []
      Option.none [("b", PyVal.int 2)] Call.init (Except.ok (PyVal.int 2))
      (by
        intro u hu
        have hu2 : u = valL "a" Option.none := by simpa using hu
        exact ⟨BindKind.missing "a", by rw [hu2]; exact rfl⟩)
      rfl
      (fun k h => by cases h)
  · exact first_semantics.2 [valL "a" Option.none] (Option.some (PyVal.str "d"))
      [] Call.init
      (by
        intro u hu
        have hu2 : u = valL "a" Option.none := by simpa using hu
        exact ⟨BindKind.missing "a", by rw [hu2]; exact rfl⟩)

/-- C3: when the parametrization function of a parametrize node yields a
list of values and the inner chain succeeds at every value (returning
the call state it was given), invoking the node calls the inner chain
once per value in iteration order with the parametrized argument
overridden to that value, under a call state whose parametrization
attributes report the argument name, the current value, its index, and
the full sequence; the node returns the list of the inner results in the
same order and restores the call state. -/
theorem parametrize_spec (p : String) (pf : LazyV) (inner : Node) (m : ArgMap)
    (c : Call) (vs : List PyVal) (r : Nat → PyVal)
    (hload : loadLazy pf m c = Except.ok (PyVal.list vs))
    (hinner : ∀ i, i < vs.length →
        runNode inner (dictSet m p (vs.getD i PyVal.none))
            (paramScope c p (vs.getD i PyVal.none) i vs)
          = (Except.ok (r i), paramScope c p (vs.getD i PyVal.none) i vs)) :
    runNode (Node.parametrize p pf inner) m c
      = (Except.ok (PyVal.list ((List.range vs.length).map r)), c) := by
  have hl := paramLoop_all_ok (runNode inner) m p vs c r vs 0 []
    (by intro i hi; rw [Nat.zero_add]; exact hinner i hi)
  simp only [runNode, runParamAux, hload]
  rw [hl]
  simp [Nat.zero_add]

/-- Doubling callable over its parametrized argument, used by the C3
witness. -/
def doubleF : PyFunc :=
  ⟨[⟨"val", Option.none⟩],
   fun _ mm =>
     match lookup mm "val" with
     | Option.some (PyVal.int n) => Except.ok (PyVal.int (2 * n))
     | _ => Except.error (Err.typeErr "bad")⟩

/-- Witness for C3: parametrizing the doubling target over the values
one, two, three returns their doubles in order. -/
theorem parametrize_spec_witness :
    runNode (Node.parametrize "val" (valL "vals" Option.none) (Node.base doubleF))
        [("vals", PyVal.list [PyVal.int 1, PyVal.int 2, PyVal.int 3])] Call.init
      = (Except.ok (PyVal.list [PyVal.int 2, PyVal.int 4, PyVal.int 6]), Call.init) := by
  have h := parametrize_spec "val" (valL "vals" Option.none) (Node.base doubleF)
    [("vals", PyVal.list [PyVal.int 1, PyVal.int 2, PyVal.int 3])] Call.init
    [PyVal.int 1, PyVal.int 2, PyVal.int 3]
    (fun i => PyVal.int (2 * (Int.ofNat i + 1)))
    rfl
    (by
      intro i hi
      simp at hi
      interval_cases i <;> exact rfl)
  exact h.trans (by rfl)

/-- C6: the terminal node re-binds the accumulated mapping strictly
against the wrapped callable, so outside pre-func mode a missing
required parameter produces a BindError naming it; and at top level,
although the entry parse is tolerant and keeps extras, an invocation
whose caller keyword arguments leave a required parameter of the target
unfilled fails with the BindError naming that parameter. -/
theorem strict_rebind_spec :
    (∀ (f : PyFunc) (mm : ArgMap) (c : Call) (p : String),
        c.is_pre_func = false →
        firstMissing f.params mm = Option.some p →
        runNode (Node.base f) mm c
          = (Except.error (Err.bind (BindKind.missing p)), c))
    ∧ ∀ (f : PyFunc) (kw : ArgMap) (p : String),
        (f.params.map Param.name).Nodup →
        firstMissing f.params kw = Option.some p →
        topCall (Node.base f) [] kw Option.none
          = (Except.error (Err.bind (BindKind.missing p)), Option.none) := by
  constructor
  · intro f mm c p hpre hf
    exact runBase_missing f mm c p hpre hf
  · intro f kw p hnd hf
    obtain ⟨m2, hp, hfm⟩ := parseArgs_entry f kw hnd
    have hrun := runBase_missing f m2 Call.init p rfl (hfm.trans hf)
    simp [topCall, Node.func, hp, hrun]

/-- Witness for C6: calling a target requiring p with an unrelated
keyword argument fails with the BindError naming p. -/
theorem strict_rebind_witness :
    topCall (Node.base fP) [] [("other", PyVal.int 1)] Option.none
      = (Except.error (Err.bind (BindKind.missing "p")), Option.none) :=
  strict_rebind_spec.2 fP [("other", PyVal.int 1)] "p" (by simp [fP]) rfl
